import Mathlib

/-!
Shallow embedding of the bare-metal lwIP bring-up program in src/app/app.c:
the SP804-based millisecond clock, the polling scheduler of c_entry (DHCP
fine/coarse timers and the static-IP fallback), and the frame bridge
(process_frames on the receive side, netif_output on the transmit side).
Machine integers are modelled as Nat with explicit `% 4294967296` (uint32_t)
and `% 18446744073709551616` (uint64_t) wherever C truncation can occur.
-/

/-- Constant COUNTER_MAX: the SP804 timer is loaded with 0xFFFFFFFF by
timer_init and counts down from there. -/
def COUNTER_MAX : ℕ := 4294967295

/-- State of the clock: the two globals of src/app/app.c, `ms_elapsed`
(a uint64_t) and `last_check` (a uint32_t). -/
structure ClockState where
  ms_elapsed : ℕ
  last_check : ℕ
deriving DecidableEq, Repr

/-- State left by timer_init (src/app/app.c:36): `ms_elapsed = 0`,
`last_check = 0xFFFFFFFF` (the counter is loaded with its maximum). -/
def timer_init : ClockState :=
  { ms_elapsed := 0, last_check := COUNTER_MAX }

/-- Embedding of get_elapsed_ms (src/app/app.c:57).  It reads the down-counter
(a uint32_t register, hence the `% 4294967296` on the incoming value), detects a
wrap when the read value is greater than `last_check`, adds the per-call tick
delta divided by 1000 to `ms_elapsed` (a uint64_t, hence `% 18446744073709551616`),
and stores the read value in `last_check`.  Inside each branch the C uint32_t
arithmetic never truncates (in the wrap branch `remaining + elapsed` is at most
0xFFFFFFFE because `current_value > last_check`), so plain Nat arithmetic is
exact there. -/
def get_elapsed_ms (v0 : ℕ) (s : ClockState) : ClockState :=
  let current_value := v0 % 4294967296
  if current_value > s.last_check then
    let remaining := s.last_check
    let elapsed := COUNTER_MAX - current_value
    { ms_elapsed := (s.ms_elapsed + (remaining + elapsed) / 1000) % 18446744073709551616
      last_check := current_value }
  else
    let elapsed := s.last_check - current_value
    { ms_elapsed := (s.ms_elapsed + elapsed / 1000) % 18446744073709551616
      last_check := current_value }

/-- Run a whole sequence of raw counter reads through get_elapsed_ms starting
from the state timer_init leaves; each intermediate state's `ms_elapsed` is the
value the corresponding call returns. -/
def runClock (reads : List ℕ) : ClockState :=
  reads.foldl (fun s v => get_elapsed_ms v s) timer_init

/-- Raw counter value seen `t` ticks after timer_init: the counter counts down
from 0xFFFFFFFF and reloads, so its period is 2^32 ticks. -/
def counterAt (t : ℕ) : ℕ := COUNTER_MAX - t % 4294967296

/-- Formula the specification claims for the return value of get_elapsed_ms,
written from the spec's words (refinement comparison), NOT from the code:
elapsed ticks `overflow_count * (COUNTER_MAX+1) + (COUNTER_MAX - v)` divided
by 1000 (the 1 MHz tick-to-millisecond conversion). -/
def spec_elapsed_ms (overflow_count v : ℕ) : ℕ :=
  (overflow_count * (COUNTER_MAX + 1) + (COUNTER_MAX - v)) / 1000

/-- Sampling discipline for a trace of sample times (in ticks since timer_init):
strictly increasing, never missing a full counter period (gap below 2^32 ticks,
the spec's "sampled at least once per counter period"), and inside the uint64
lifetime of the millisecond accumulator. -/
def validSteps : ℕ → List ℕ → Bool
  | _, [] => true
  | t, t' :: r =>
    (decide (t < t') && decide (t' - t < 4294967296)
      && decide (t' < 18446744073709551616)) && validSteps t' r

/-- The counter image is always below 2^32. -/
lemma counterAt_lt (t : ℕ) : counterAt t < 4294967296 := by
  unfold counterAt COUNTER_MAX
  omega

/-- Unfolding step for the default-valued last element of a cons. -/
lemma getLastD_cons_eq (a d : ℕ) (l : List ℕ) : (a :: l).getLastD d = l.getLastD a := by
  cases l <;> simp [List.getLastD]

/-- Step characterisation of get_elapsed_ms: from a state holding the counter
image of time `t`, a call at time `t'` with `0 < t' - t < 2^32` stores the new
counter image and adds `d / 1000` to the accumulator, where `d` is the true
tick delta without a wrap and the true delta minus one across a wrap (the code
omits the reload tick). -/
lemma get_elapsed_ms_step (t t' : ℕ) (s : ClockState)
    (hlast : s.last_check = counterAt t) (h1 : t < t') (h2 : t' - t < 4294967296) :
    (get_elapsed_ms (counterAt t') s).last_check = counterAt t' ∧
    ∃ d, (get_elapsed_ms (counterAt t') s).ms_elapsed
        = (s.ms_elapsed + d / 1000) % 18446744073709551616 ∧
      (d = t' - t ∨ d = t' - t - 1) := by
  have hmt : t % 4294967296 < 4294967296 := Nat.mod_lt _ (by norm_num)
  have habs : t' = t + (t' - t) := by omega
  have hmod : t' % 4294967296 = (t % 4294967296 + (t' - t)) % 4294967296 := by
    conv_lhs => rw [habs]
    rw [Nat.add_mod, Nat.mod_eq_of_lt h2]
  have hval : counterAt t' % 4294967296 = counterAt t' :=
    Nat.mod_eq_of_lt (counterAt_lt t')
  rcases Nat.lt_or_ge (t % 4294967296 + (t' - t)) 4294967296 with hA | hB
  · -- no wrap between the two samples
    have ht' : t' % 4294967296 = t % 4294967296 + (t' - t) := by
      rw [hmod, Nat.mod_eq_of_lt hA]
    have hnotgt : ¬ (counterAt t' % 4294967296 > s.last_check) := by
      rw [hval, hlast]
      unfold counterAt COUNTER_MAX
      omega
    have hdelta : s.last_check - counterAt t' % 4294967296 = t' - t := by
      rw [hval, hlast]
      unfold counterAt COUNTER_MAX
      omega
    refine ⟨?_, t' - t, ?_, Or.inl rfl⟩
    · simp only [get_elapsed_ms]
      rw [if_neg hnotgt]
      exact hval
    · simp only [get_elapsed_ms]
      rw [if_neg hnotgt, hdelta]
  · -- the counter wrapped between the two samples
    have ht' : t' % 4294967296 = t % 4294967296 + (t' - t) - 4294967296 := by
      rw [hmod, Nat.mod_eq_sub_mod hB, Nat.mod_eq_of_lt (by omega)]
    have hgt : counterAt t' % 4294967296 > s.last_check := by
      rw [hval, hlast]
      unfold counterAt COUNTER_MAX
      omega
    have hdelta : s.last_check + (COUNTER_MAX - counterAt t' % 4294967296)
        = t' - t - 1 := by
      rw [hval, hlast]
      unfold counterAt COUNTER_MAX
      omega
    refine ⟨?_, t' - t - 1, ?_, Or.inr rfl⟩
    · simp only [get_elapsed_ms]
      rw [if_pos hgt]
      exact hval
    · simp only [get_elapsed_ms]
      rw [if_pos hgt, hdelta]

/-- Run invariant: along a validly sampled trace the accumulated milliseconds
track total elapsed ticks to within one millisecond per call, the accumulator
never decreases and never reaches the uint64 wrap, and `last_check` always
holds the counter image of the latest sample. -/
lemma runClock_inv (ts : List ℕ) :
    ∀ (t n : ℕ) (s : ClockState),
      validSteps t ts = true →
      s.last_check = counterAt t →
      1000 * s.ms_elapsed ≤ t →
      t ≤ 1000 * s.ms_elapsed + 1000 * n →
      t < 18446744073709551616 →
      (List.foldl (fun s v => get_elapsed_ms v s) s (ts.map counterAt)).last_check
          = counterAt (ts.getLastD t) ∧
      s.ms_elapsed
          ≤ (List.foldl (fun s v => get_elapsed_ms v s) s (ts.map counterAt)).ms_elapsed ∧
      1000 * (List.foldl (fun s v => get_elapsed_ms v s) s (ts.map counterAt)).ms_elapsed
          ≤ ts.getLastD t ∧
      ts.getLastD t
          ≤ 1000 * (List.foldl (fun s v => get_elapsed_ms v s) s (ts.map counterAt)).ms_elapsed
            + 1000 * (n + ts.length) ∧
      ts.getLastD t < 18446744073709551616 := by
  induction ts with
  | nil =>
    intro t n s _ hlast h1 h2 h64
    refine ⟨hlast, le_refl _, h1, by simpa using by omega, h64⟩
  | cons t' r ih =>
    intro t n s hv hlast h1 h2 h64
    simp only [validSteps, Bool.and_eq_true, decide_eq_true_eq] at hv
    obtain ⟨⟨⟨hlt, hgap⟩, ht64⟩, hvr⟩ := hv
    obtain ⟨hl', d, hms, hd⟩ := get_elapsed_ms_step t t' s hlast hlt hgap
    have hq : 1000 * (d / 1000) ≤ d := by
      have := Nat.div_mul_le_self d 1000
      omega
    have hdle : d ≤ t' - t := by omega
    have hov : s.ms_elapsed + d / 1000 < 18446744073709551616 := by omega
    have hms' : (get_elapsed_ms (counterAt t') s).ms_elapsed = s.ms_elapsed + d / 1000 := by
      rw [hms, Nat.mod_eq_of_lt hov]
    have hdd : 1000 * (d / 1000) + d % 1000 = d := Nat.div_add_mod d 1000
    have hdm : d % 1000 < 1000 := Nat.mod_lt _ (by norm_num)
    have hI1 : 1000 * (get_elapsed_ms (counterAt t') s).ms_elapsed ≤ t' := by
      rw [hms']
      omega
    have hI2 : t' ≤ 1000 * (get_elapsed_ms (counterAt t') s).ms_elapsed + 1000 * (n + 1) := by
      rw [hms']
      rcases hd with hde | hde <;> omega
    have hrec := ih t' (n + 1) (get_elapsed_ms (counterAt t') s) hvr hl' hI1 hI2 ht64
    obtain ⟨r1, r2, r3, r4, r5⟩ := hrec
    rw [getLastD_cons_eq]
    refine ⟨?_, ?_, ?_, ?_, ?_⟩
    · simpa using r1
    · simp only [List.map_cons, List.foldl_cons]
      calc s.ms_elapsed ≤ (get_elapsed_ms (counterAt t') s).ms_elapsed := by
            rw [hms']; omega
        _ ≤ _ := r2
    · simpa using r3
    · have := r4
      simp only [List.map_cons, List.foldl_cons, List.length_cons] at this ⊢
      omega
    · exact r5

/-- C1 counterexample: with the counter sampled 500 and then 1000 ticks after
timer_init (a validly sampled, wrap-free trace), get_elapsed_ms returns 0 ms,
while the claimed formula `(overflow_count*(COUNTER_MAX+1) + (COUNTER_MAX - v)) / 1000`
gives 1 ms: the code accumulates per-call quotients, so each call's
sub-millisecond remainder is lost and the returned value is not the claimed
total converted to milliseconds. -/
theorem C1_counterexample :
    validSteps 0 [500, 1000] = true ∧
    (runClock ([500, 1000].map counterAt)).ms_elapsed = 0 ∧
    spec_elapsed_ms 0 (counterAt 1000) = 1 ∧
    (runClock ([500, 1000].map counterAt)).ms_elapsed ≠ spec_elapsed_ms 0 (counterAt 1000) := by
  decide

/-- C1 (amended): get_elapsed_ms accumulates one integer quotient per call, so
along any validly sampled trace its value R satisfies
`R ≤ floor(T/1000) ≤ R + n` where T is the total elapsed tick count at the last
sample (at 1 MHz) and n the number of calls: the reported time can fall short of
the claimed formula by up to one millisecond per call (plus one lost tick per
wrap), not by at most 1 ms regardless of the number of intermediate calls.  In
the claim's 4295.5 s scenario, a sparse pattern of one call per period returns
4 295 499 ms, within 1 ms of 4 295 500. -/
theorem C1_amended :
    (∀ ts : List ℕ, validSteps 0 ts = true →
      (runClock (ts.map counterAt)).ms_elapsed ≤ ts.getLastD 0 / 1000 ∧
      ts.getLastD 0 / 1000 ≤ (runClock (ts.map counterAt)).ms_elapsed + ts.length) ∧
    (runClock ([4000000000, 4295500000].map counterAt)).ms_elapsed = 4295499 := by
  constructor
  · intro ts hv
    have hlast0 : timer_init.last_check = counterAt 0 := by decide
    have h := runClock_inv ts 0 0 timer_init hv hlast0 (by decide) (Nat.zero_le _) (by norm_num)
    obtain ⟨-, -, hA, hB, -⟩ := h
    have hrun : runClock (ts.map counterAt)
        = List.foldl (fun s v => get_elapsed_ms v s) timer_init (ts.map counterAt) := rfl
    rw [hrun]
    constructor
    · exact (Nat.le_div_iff_mul_le (by norm_num)).2 (by omega)
    · have h2 : ts.getLastD 0
          ≤ 1000 * ((List.foldl (fun s v => get_elapsed_ms v s) timer_init
              (ts.map counterAt)).ms_elapsed + ts.length) := by omega
      calc ts.getLastD 0 / 1000
          ≤ 1000 * ((List.foldl (fun s v => get_elapsed_ms v s) timer_init
              (ts.map counterAt)).ms_elapsed + ts.length) / 1000 :=
            Nat.div_le_div_right h2
        _ = _ := Nat.mul_div_cancel_left _ (by norm_num)
  · decide

/-- C1 witness: the amended error bound instantiated on the concrete trace
sampling the clock 500 and 1000 ticks after timer_init. -/
theorem C1_witness :
    (runClock ([500, 1000].map counterAt)).ms_elapsed ≤ ([500, 1000] : List ℕ).getLastD 0 / 1000 ∧
    ([500, 1000] : List ℕ).getLastD 0 / 1000
      ≤ (runClock ([500, 1000].map counterAt)).ms_elapsed + ([500, 1000] : List ℕ).length :=
  C1_amended.1 [500, 1000] (by decide)

/-- Splitting a validly sampled trace: validity of a concatenation is validity of
the first part followed by validity of the second from the first part's last time. -/
lemma validSteps_append (ts1 : List ℕ) :
    ∀ (t : ℕ) (ts2 : List ℕ),
      validSteps t (ts1 ++ ts2) = (validSteps t ts1 && validSteps (ts1.getLastD t) ts2) := by
  induction ts1 with
  | nil =>
    intro t ts2
    simp [validSteps, List.getLastD]
  | cons a r ih =>
    intro t ts2
    rw [List.cons_append, getLastD_cons_eq]
    simp only [validSteps, ih a ts2, Bool.and_assoc]

/-- C4: along any validly sampled trace of counter reads (raw reads strictly
decrease except at wrap points because they are the counter images of strictly
increasing sample times, and no full counter period is ever missed), the values
returned by successive get_elapsed_ms calls never decrease: extending a run by
more samples never lowers the reported milliseconds. -/
theorem C4_monotone (ts1 ts2 : List ℕ)
    (hv : validSteps 0 (ts1 ++ ts2) = true) :
    (runClock (ts1.map counterAt)).ms_elapsed
      ≤ (runClock ((ts1 ++ ts2).map counterAt)).ms_elapsed := by
  rw [validSteps_append, Bool.and_eq_true] at hv
  obtain ⟨hv1, hv2⟩ := hv
  have hlast0 : timer_init.last_check = counterAt 0 := by decide
  have h1 := runClock_inv ts1 0 0 timer_init hv1 hlast0 (by decide) (Nat.zero_le _) (by norm_num)
  obtain ⟨g1, -, g3, g4, g5⟩ := h1
  have h2 := runClock_inv ts2 (ts1.getLastD 0) ts1.length
      (List.foldl (fun s v => get_elapsed_ms v s) timer_init (ts1.map counterAt))
      hv2 g1 g3 (by simpa using g4) g5
  obtain ⟨-, hmono, -, -, -⟩ := h2
  have hrw : runClock ((ts1 ++ ts2).map counterAt)
      = List.foldl (fun s v => get_elapsed_ms v s)
          (List.foldl (fun s v => get_elapsed_ms v s) timer_init (ts1.map counterAt))
          (ts2.map counterAt) := by
    simp [runClock, List.map_append, List.foldl_append]
  rw [hrw]
  exact hmono

/-- C4 witness: the monotonicity theorem instantiated on the concrete valid trace
sampling the clock 500 and then 1000 ticks after timer_init. -/
theorem C4_witness :
    (runClock (([500] : List ℕ).map counterAt)).ms_elapsed
      ≤ (runClock ((([500] : List ℕ) ++ [1000]).map counterAt)).ms_elapsed :=
  C4_monotone [500] [1000] (by decide)

/-- Trace that polls the clock every 999 ticks (faster than once per millisecond):
sample times 999, 1998, ..., 999*n. -/
def fastPoll (n : ℕ) : List ℕ :=
  (List.range n).map (fun i => 999 * (i + 1))

/-- Last element of a trace extended by one more sample. -/
lemma getLastD_append_singleton (l : List ℕ) (x : ℕ) :
    ∀ d, (l ++ [x]).getLastD d = x := by
  induction l with
  | nil => intro d; rfl
  | cons a r ih =>
    intro d
    rw [List.cons_append, getLastD_cons_eq]
    exact ih a

/-- The fast-poll trace is validly sampled (within the uint64 lifetime) and
ends at time 999*n. -/
lemma fastPoll_valid (n : ℕ) (hn : 999 * n < 18446744073709551616) :
    validSteps 0 (fastPoll n) = true ∧ (fastPoll n).getLastD 0 = 999 * n := by
  induction n with
  | zero => exact ⟨rfl, rfl⟩
  | succ m ih =>
    have hsplit : fastPoll (m + 1) = fastPoll m ++ [999 * (m + 1)] := by
      simp [fastPoll, List.range_succ]
    obtain ⟨ih1, ih2⟩ := ih (by omega)
    constructor
    · rw [hsplit, validSteps_append, ih1, ih2, Bool.true_and]
      simp only [validSteps, Bool.and_eq_true, decide_eq_true_eq]
      refine ⟨⟨⟨by omega, by omega⟩, by omega⟩, trivial⟩
    · rw [hsplit, getLastD_append_singleton]

/-- Polling every 999 ticks never advances the reported milliseconds: every
per-call delta is 999 ticks (998 across a wrap because the code drops the
reload tick), and both divide to zero. -/
lemma fastPoll_run (n : ℕ) :
    (runClock ((fastPoll n).map counterAt)).ms_elapsed = 0 ∧
    (runClock ((fastPoll n).map counterAt)).last_check = counterAt (999 * n) := by
  induction n with
  | zero => exact ⟨rfl, rfl⟩
  | succ m ih =>
    have hsplit : fastPoll (m + 1) = fastPoll m ++ [999 * (m + 1)] := by
      simp [fastPoll, List.range_succ]
    obtain ⟨ih1, ih2⟩ := ih
    have hrw : runClock ((fastPoll (m + 1)).map counterAt)
        = get_elapsed_ms (counterAt (999 * (m + 1))) (runClock ((fastPoll m).map counterAt)) := by
      rw [hsplit]
      simp [runClock, List.map_append, List.foldl_append]
    obtain ⟨hl, d, hms, hd⟩ :=
      get_elapsed_ms_step (999 * m) (999 * (m + 1)) (runClock ((fastPoll m).map counterAt))
        ih2 (by omega) (by omega)
    have hd0 : d / 1000 = 0 := Nat.div_eq_of_lt (by omega)
    constructor
    · rw [hrw, hms, hd0, ih1]
    · rw [hrw]
      exact hl

/-- C9: a call whose counter read is at most 999 ticks below the stored
`last_check` (no wrap in between) leaves the returned millisecond count
unchanged — each call divides only its own tick delta by 1000 and the
sub-millisecond remainder is discarded for good — and consequently a loop
polling every 999 ticks keeps the reported time at 0 forever: for every bound B
(within the uint64 lifetime) the fast-poll trace of 2*B calls is validly
sampled, truly lasts at least B milliseconds, yet get_elapsed_ms still
reports 0. -/
theorem C9_submillisecond :
    (∀ (v : ℕ) (s : ClockState),
      s.last_check < 4294967296 →
      s.ms_elapsed < 18446744073709551616 →
      v ≤ s.last_check →
      s.last_check - v < 1000 →
      (get_elapsed_ms v s).ms_elapsed = s.ms_elapsed) ∧
    (∀ B : ℕ, B < 1125899906842624 →
      validSteps 0 (fastPoll (2 * B)) = true ∧
      (runClock ((fastPoll (2 * B)).map counterAt)).ms_elapsed = 0 ∧
      B ≤ (fastPoll (2 * B)).getLastD 0 / 1000) := by
  constructor
  · intro v s hwf1 hwf2 hle hnear
    have hv : v % 4294967296 = v := Nat.mod_eq_of_lt (by omega)
    have hnotgt : ¬ (v % 4294967296 > s.last_check) := by
      rw [hv]
      omega
    simp only [get_elapsed_ms]
    rw [if_neg hnotgt, hv]
    have h0 : (s.last_check - v) / 1000 = 0 := Nat.div_eq_of_lt hnear
    rw [h0]
    simpa using Nat.mod_eq_of_lt hwf2
  · intro B hB
    obtain ⟨hv, hlast⟩ := fastPoll_valid (2 * B) (by omega)
    refine ⟨hv, (fastPoll_run (2 * B)).1, ?_⟩
    rw [hlast]
    rw [Nat.le_div_iff_mul_le (by norm_num)]
    omega

/-- C9 witness: a concrete call 999 ticks after timer_init reports 0 ms, and the
concrete fast-poll trace of 10 calls spans at least 5 ms of true time while
still reporting 0 ms. -/
theorem C9_witness :
    (get_elapsed_ms (counterAt 999) timer_init).ms_elapsed = timer_init.ms_elapsed ∧
    (validSteps 0 (fastPoll (2 * 5)) = true ∧
      (runClock ((fastPoll (2 * 5)).map counterAt)).ms_elapsed = 0 ∧
      5 ≤ (fastPoll (2 * 5)).getLastD 0 / 1000) :=
  ⟨C9_submillisecond.1 (counterAt 999) timer_init (by decide) (by decide) (by decide) (by decide),
    C9_submillisecond.2 5 (by norm_num)⟩

/-- Constant ERR_OK of lwIP (err_t is a signed byte, 0 = success). -/
def ERR_OK : ℤ := 0

/-- Capability flags set by netif_set_opts: NETIF_FLAG_BROADCAST,
NETIF_FLAG_ETHARP and NETIF_FLAG_ETHERNET. -/
structure NetifFlags where
  broadcast : Bool
  etharp : Bool
  ethernet : Bool
deriving DecidableEq, Repr

/-- Which function the interface's link-layer output pointer holds. -/
inductive LinkOutput
  | unset
  | netifOutputFn
deriving DecidableEq, Repr

/-- Which function the interface's network-layer output pointer holds. -/
inductive NetOutput
  | unset
  | etharpOutputFn
deriving DecidableEq, Repr

/-- Interface attributes of `struct netif` that src/app/app.c touches.
IPv4 words are naturals (0 = IP4_ADDR_ANY, the unconfigured state). -/
structure Netif where
  ip_addr : ℕ
  netmask : ℕ
  gw : ℕ
  mtu : ℕ
  flags : NetifFlags
  hwaddr : List ℕ
  hwaddr_len : ℕ
  linkoutput : LinkOutput
  output : NetOutput
deriving DecidableEq, Repr

/-- Packing of four octets into one IPv4 word, as the IP4_ADDR macro does. -/
def IP4_ADDR (a b c d : ℕ) : ℕ := ((a * 256 + b) * 256 + c) * 256 + d

/-- Modelled from the spec: netif_set_addr is the stack's
`set_address(interface, addr, netmask, gateway)` collaborator (spec section 6,
external to this repository); it assigns the three addresses and nothing else. -/
def netif_set_addr (nf : Netif) (addr netmask gw : ℕ) : Netif :=
  { nf with ip_addr := addr, netmask := netmask, gw := gw }

/-- Embedding of use_static_ip (src/app/app.c:137): applies the fixed fallback
triple 10.0.2.99 / 255.255.255.0 / 10.0.0.1 with a single netif_set_addr call
(the printf is output only and not modelled). -/
def use_static_ip (nf : Netif) : Netif :=
  netif_set_addr nf (IP4_ADDR 10 0 2 99) (IP4_ADDR 255 255 255 0) (IP4_ADDR 10 0 0 1)

/-- Embedding of netif_set_opts (src/app/app.c:112): the one-shot interface
setup invoked by netif_add during bring-up. -/
def netif_set_opts (nf : Netif) : Netif × ℤ :=
  ({ nf with
      linkoutput := LinkOutput.netifOutputFn
      output := NetOutput.etharpOutputFn
      mtu := 1500
      flags := { broadcast := true, etharp := true, ethernet := true }
      hwaddr_len := 6
      hwaddr := [0x00, 0x23, 0xC1, 0xDE, 0xD0, 0x0D] }, ERR_OK)

/-- Scheduler state of the main loop of c_entry: the interface, the two uint32
DHCP timer variables, and ghost counters recording how many times the external
callbacks dhcp_fine_tmr and dhcp_coarse_tmr and the fallback use_static_ip have
been invoked. -/
structure LoopState where
  netif : Netif
  dhcp_fine_timer_ms : ℕ
  dhcp_coarse_timer_ms : ℕ
  fineFires : ℕ
  coarseFires : ℕ
  fallbackFires : ℕ
deriving DecidableEq, Repr

/-- Subtraction of C uint64_t values (wraparound semantics). -/
def u64sub (a b : ℕ) : ℕ :=
  (a % 18446744073709551616 + (18446744073709551616 - b % 18446744073709551616))
    % 18446744073709551616

/-- Startup state of c_entry (src/app/app.c:152): both DHCP timer variables are
initialized from the first clock sample `c0` (`current_time`, a uint64 value
truncated into the uint32 stores), the interface is configured once by
netif_set_opts via netif_add with all-zero addresses, and netif_set_up brings
it up before the loop starts. -/
def initLoop (c0 : ℕ) : LoopState :=
  { netif := (netif_set_opts
      { ip_addr := 0, netmask := 0, gw := 0, mtu := 0
        flags := { broadcast := false, etharp := false, ethernet := false }
        hwaddr := [], hwaddr_len := 0
        linkoutput := LinkOutput.unset, output := NetOutput.unset }).1
    dhcp_fine_timer_ms := c0 % 4294967296
    dhcp_coarse_timer_ms := c0 % 4294967296
    fineFires := 0
    coarseFires := 0
    fallbackFires := 0 }

/-- One iteration of the main loop of c_entry (src/app/app.c:192), with the
sampled `current_time` passed in as `t` and the inbound-frame phase abstracted
to the address the DHCP collaborator may bind during it (`bind = some a`: the
stack stores address `a` into the interface while processing frames; `none`: no
binding this iteration).  The interface is up throughout (netif_set_up runs
before the loop and nothing clears it), so the netif_is_up conjunct of the
fallback guard is true.  The phase order matches the source: frames, fine
timer, coarse timer, fallback. -/
def pollStep (bind : Option ℕ) (t : ℕ) (s : LoopState) : LoopState :=
  let s1 : LoopState :=
    match bind with
    | some a => { s with netif := { s.netif with ip_addr := a } }
    | none => s
  let s2 : LoopState :=
    if 500 ≤ u64sub t s1.dhcp_fine_timer_ms then
      { s1 with dhcp_fine_timer_ms := t % 4294967296, fineFires := s1.fineFires + 1 }
    else s1
  let s3 : LoopState :=
    if 60000 ≤ u64sub t s2.dhcp_coarse_timer_ms then
      { s2 with dhcp_coarse_timer_ms := t % 4294967296, coarseFires := s2.coarseFires + 1 }
    else s2
  if 10000 < t % 18446744073709551616 ∧ s3.netif.ip_addr = 0 then
    { s3 with netif := use_static_ip s3.netif, fallbackFires := s3.fallbackFires + 1 }
  else s3

/-- Fold of poll iterations, each given as (bind event, sampled time). -/
def runLoop (s : LoopState) (evs : List (Option ℕ × ℕ)) : LoopState :=
  evs.foldl (fun s p => pollStep p.1 p.2 s) s

/-- Sampled times of a poll trace are non-decreasing from the initial sample
(which get_elapsed_ms guarantees) and lie within uint64 range (which the uint64
return type of get_elapsed_ms guarantees). -/
def monoTimes : ℕ → List (Option ℕ × ℕ) → Bool
  | _, [] => true
  | t, p :: r =>
    (decide (t ≤ p.2) && decide (p.2 < 18446744073709551616)) && monoTimes p.2 r

/-- Time of the final sample of a poll trace, defaulting to the initial one. -/
def lastTimeD (t : ℕ) (evs : List (Option ℕ × ℕ)) : ℕ :=
  (evs.map Prod.snd).getLastD t

/-- Reduction of uint64 subtraction to exact subtraction when no wraparound occurs. -/
lemma u64sub_eq (a b : ℕ) (hb : b ≤ a) (ha : a < 18446744073709551616) :
    u64sub a b = a - b := by
  unfold u64sub
  have hbU : b % 18446744073709551616 = b := Nat.mod_eq_of_lt (by omega)
  have haU : a % 18446744073709551616 = a := Nat.mod_eq_of_lt ha
  rw [haU, hbU]
  have hsplit : a + (18446744073709551616 - b) = (a - b) + 18446744073709551616 := by
    omega
  rw [hsplit, Nat.add_mod_right, Nat.mod_eq_of_lt (by omega)]

/-- One poll iteration can only move a timer store to (the uint32 image of) the
current sample, so timer stores never exceed the current sample time. -/
lemma pollStep_timers_le (b : Option ℕ) (t : ℕ) (s : LoopState)
    (hf : s.dhcp_fine_timer_ms ≤ t) (hc : s.dhcp_coarse_timer_ms ≤ t) :
    (pollStep b t s).dhcp_fine_timer_ms ≤ t ∧
    (pollStep b t s).dhcp_coarse_timer_ms ≤ t := by
  cases b <;> simp only [pollStep] <;> split_ifs <;>
    (try dsimp only) <;> constructor <;> omega

/-- Timer stores stay below the latest sampled time along any monotone poll trace. -/
lemma runLoop_timers_le (evs : List (Option ℕ × ℕ)) :
    ∀ (t : ℕ) (s : LoopState),
      monoTimes t evs = true →
      s.dhcp_fine_timer_ms ≤ t →
      s.dhcp_coarse_timer_ms ≤ t →
      (runLoop s evs).dhcp_fine_timer_ms ≤ lastTimeD t evs ∧
      (runLoop s evs).dhcp_coarse_timer_ms ≤ lastTimeD t evs := by
  induction evs with
  | nil =>
    intro t s _ hf hc
    exact ⟨hf, hc⟩
  | cons p r ih =>
    intro t s hm hf hc
    simp only [monoTimes, Bool.and_eq_true, decide_eq_true_eq] at hm
    obtain ⟨⟨hle, -⟩, hmr⟩ := hm
    have hstep := pollStep_timers_le p.1 p.2 s (by omega) (by omega)
    have hrec := ih p.2 (pollStep p.1 p.2 s) hmr hstep.1 hstep.2
    have hlast : lastTimeD t (p :: r) = lastTimeD p.2 r := by
      simp only [lastTimeD, List.map_cons]
      exact getLastD_cons_eq _ _ _
    rw [hlast]
    exact hrec

/-- C7: along any monotone poll trace, the two DHCP timer stores
dhcp_fine_timer_ms and dhcp_coarse_timer_ms never exceed the current monotonic
time plus their periods (they are in fact never above the latest sample: they
are rearmed to the sampling instant when due, never left stale), and both are
initialized from the first clock sample at startup.  They are only ever
written by initLoop and pollStep, the embeddings of the startup code and of
the poll-loop body. -/
theorem C7_deadlines (c0 : ℕ) (evs : List (Option ℕ × ℕ))
    (hm : monoTimes c0 evs = true) :
    (runLoop (initLoop c0) evs).dhcp_fine_timer_ms ≤ lastTimeD c0 evs + 500 ∧
    (runLoop (initLoop c0) evs).dhcp_coarse_timer_ms ≤ lastTimeD c0 evs + 60000 ∧
    (initLoop c0).dhcp_fine_timer_ms = c0 % 4294967296 ∧
    (initLoop c0).dhcp_coarse_timer_ms = c0 % 4294967296 := by
  have hbase : (initLoop c0).dhcp_fine_timer_ms ≤ c0 := Nat.mod_le _ _
  have hbase2 : (initLoop c0).dhcp_coarse_timer_ms ≤ c0 := Nat.mod_le _ _
  have h := runLoop_timers_le evs c0 (initLoop c0) hm hbase hbase2
  exact ⟨by omega, by omega, rfl, rfl⟩

/-- C7 witness: the invariant instantiated on a concrete two-iteration trace. -/
theorem C7_witness :
    (runLoop (initLoop 0) [(none, 600), (none, 1300)]).dhcp_fine_timer_ms
        ≤ lastTimeD 0 [(none, 600), (none, 1300)] + 500 ∧
    (runLoop (initLoop 0) [(none, 600), (none, 1300)]).dhcp_coarse_timer_ms
        ≤ lastTimeD 0 [(none, 600), (none, 1300)] + 60000 ∧
    (initLoop 0).dhcp_fine_timer_ms = 0 % 4294967296 ∧
    (initLoop 0).dhcp_coarse_timer_ms = 0 % 4294967296 :=
  C7_deadlines 0 [(none, 600), (none, 1300)] (by decide)

/-- C5 counterexample: once the uint64 monotonic time passes 2^32 ms, the
uint32 store dhcp_fine_timer_ms truncates the rearm time, and the fine callback
fires again only 100 ms after its previous firing — the claimed
"fires only if at least 500 ms have elapsed since the fine deadline was last
rearmed" is violated.  Concretely: from startup state, a poll at
t = 2^32 + 100 ms fires the fine callback (rearming it), and the very next poll
at t = 2^32 + 200 ms fires it again although only 100 ms have elapsed. -/
theorem C5_counterexample :
    (pollStep none 4294967396 (initLoop 0)).fineFires = 1 ∧
    (pollStep none 4294967496 (pollStep none 4294967396 (initLoop 0))).fineFires = 2 ∧
    4294967496 - 4294967396 < 500 := by
  decide

/-- C5 (amended): while the sampled monotonic time is still below 2^32 ms
(about 49.7 days) and at least the stored rearm time, one poll iteration fires
the fine callback at most once, fires it exactly when at least 500 ms have
elapsed since the fine deadline was last rearmed, and on firing rearms the
deadline to the currently sampled time; beyond 2^32 ms the uint32 deadline
store truncates the 64-bit time and the 500 ms condition no longer coincides
with elapsed-time-since-rearm. -/
theorem C5_amended (b : Option ℕ) (t : ℕ) (s : LoopState)
    (hle : s.dhcp_fine_timer_ms ≤ t) (ht : t < 4294967296) :
    ((pollStep b t s).fineFires = s.fineFires ∨
      (pollStep b t s).fineFires = s.fineFires + 1) ∧
    ((pollStep b t s).fineFires = s.fineFires + 1 ↔ 500 ≤ t - s.dhcp_fine_timer_ms) ∧
    (500 ≤ t - s.dhcp_fine_timer_ms → (pollStep b t s).dhcp_fine_timer_ms = t) ∧
    (t - s.dhcp_fine_timer_ms < 500 →
      (pollStep b t s).dhcp_fine_timer_ms = s.dhcp_fine_timer_ms) := by
  have hsub : u64sub t s.dhcp_fine_timer_ms = t - s.dhcp_fine_timer_ms :=
    u64sub_eq t s.dhcp_fine_timer_ms hle (by omega)
  cases b <;> simp only [pollStep] <;> rw [hsub] <;> split_ifs <;>
    (try dsimp only) <;> omega

/-- C5 witness: the amended per-iteration contract instantiated at a concrete
poll 600 ms after startup. -/
theorem C5_witness :
    ((pollStep none 600 (initLoop 0)).fineFires = (initLoop 0).fineFires ∨
      (pollStep none 600 (initLoop 0)).fineFires = (initLoop 0).fineFires + 1) ∧
    ((pollStep none 600 (initLoop 0)).fineFires = (initLoop 0).fineFires + 1 ↔
      500 ≤ 600 - (initLoop 0).dhcp_fine_timer_ms) ∧
    (500 ≤ 600 - (initLoop 0).dhcp_fine_timer_ms →
      (pollStep none 600 (initLoop 0)).dhcp_fine_timer_ms = 600) ∧
    (600 - (initLoop 0).dhcp_fine_timer_ms < 500 →
      (pollStep none 600 (initLoop 0)).dhcp_fine_timer_ms
        = (initLoop 0).dhcp_fine_timer_ms) :=
  C5_amended none 600 (initLoop 0) (by decide) (by norm_num)

/-- Once the interface holds a nonzero address and no bind event clears it, a
poll iteration leaves the fallback counter alone and the address nonzero. -/
lemma pollStep_keep_nonzero (b : Option ℕ) (t : ℕ) (s : LoopState)
    (hb : b ≠ some 0) (ha : s.netif.ip_addr ≠ 0) :
    (pollStep b t s).fallbackFires = s.fallbackFires ∧
    (pollStep b t s).netif.ip_addr ≠ 0 := by
  cases b with
  | none =>
    simp only [pollStep]
    split_ifs <;> simp_all
  | some a =>
    have ha' : a ≠ 0 := by simpa using hb
    simp only [pollStep]
    split_ifs <;> simp_all

/-- Run version of pollStep_keep_nonzero. -/
lemma runLoop_keep_nonzero (evs : List (Option ℕ × ℕ)) :
    ∀ s : LoopState,
      (∀ p ∈ evs, p.1 ≠ some 0) →
      s.netif.ip_addr ≠ 0 →
      (runLoop s evs).fallbackFires = s.fallbackFires ∧
      (runLoop s evs).netif.ip_addr ≠ 0 := by
  induction evs with
  | nil => intro s _ ha; exact ⟨rfl, ha⟩
  | cons p r ih =>
    intro s hb ha
    have hp : p.1 ≠ some 0 := hb p (List.mem_cons_self p r)
    have hstep := pollStep_keep_nonzero p.1 p.2 s hp ha
    have hrec := ih (pollStep p.1 p.2 s) (fun q hq => hb q (List.mem_cons_of_mem p hq)) hstep.2
    exact ⟨by rw [runLoop, List.foldl_cons]; rw [runLoop] at hrec; omega, by
      rw [runLoop, List.foldl_cons]; rw [runLoop] at hrec; exact hrec.2⟩

/-- A poll iteration whose sampled time has not passed 10000 ms never fires the
fallback. -/
lemma pollStep_low_time (b : Option ℕ) (t : ℕ) (s : LoopState) (ht : t ≤ 10000) :
    (pollStep b t s).fallbackFires = s.fallbackFires := by
  have hmod : t % 18446744073709551616 ≤ t := Nat.mod_le _ _
  cases b <;> simp only [pollStep] <;> split_ifs <;> simp_all <;> omega

/-- Run version of pollStep_low_time. -/
lemma runLoop_low_times (evs : List (Option ℕ × ℕ)) :
    ∀ s : LoopState,
      (∀ p ∈ evs, p.2 ≤ 10000) →
      (runLoop s evs).fallbackFires = s.fallbackFires := by
  induction evs with
  | nil => intro s _; rfl
  | cons p r ih =>
    intro s ht
    have hp : p.2 ≤ 10000 := ht p (List.mem_cons_self p r)
    have hstep := pollStep_low_time p.1 p.2 s hp
    have hrec := ih (pollStep p.1 p.2 s) (fun q hq => ht q (List.mem_cons_of_mem p hq))
    rw [runLoop, List.foldl_cons]
    rw [runLoop] at hrec
    omega

/-- A low-time iteration with a bind event installs exactly the bound address. -/
lemma pollStep_bind_low (a t : ℕ) (s : LoopState) (ht : t ≤ 10000) :
    (pollStep (some a) t s).netif.ip_addr = a ∧
    (pollStep (some a) t s).fallbackFires = s.fallbackFires := by
  have hmod : t % 18446744073709551616 ≤ t := Nat.mod_le _ _
  simp only [pollStep]
  split_ifs <;> simp_all <;> omega

/-- Behaviour of one iteration while the interface is still unconfigured and no
bind event arrives: past 10000 ms the fallback fires and installs 10.0.2.99,
otherwise nothing changes the address or the fallback counter. -/
lemma pollStep_zero_addr (t : ℕ) (s : LoopState)
    (haddr : s.netif.ip_addr = 0) (ht : t < 18446744073709551616) :
    (10000 < t →
      (pollStep none t s).fallbackFires = s.fallbackFires + 1 ∧
      (pollStep none t s).netif.ip_addr = IP4_ADDR 10 0 2 99) ∧
    (t ≤ 10000 →
      (pollStep none t s).fallbackFires = s.fallbackFires ∧
      (pollStep none t s).netif.ip_addr = 0) := by
  have hmod : t % 18446744073709551616 = t := Nat.mod_eq_of_lt ht
  simp only [pollStep]
  split_ifs <;> simp_all [use_static_ip, netif_set_addr] <;> omega

/-- With no bind events at all, a run from an unconfigured interface fires the
fallback exactly once if some sample passes 10000 ms and never otherwise. -/
lemma runLoop_no_binds (evs : List (Option ℕ × ℕ)) :
    ∀ s : LoopState,
      (∀ p ∈ evs, p.1 = none) →
      (∀ p ∈ evs, p.2 < 18446744073709551616) →
      s.netif.ip_addr = 0 →
      (runLoop s evs).fallbackFires
        = s.fallbackFires + (if evs.any (fun p => decide (10000 < p.2)) then 1 else 0) := by
  induction evs with
  | nil => intro s _ _ _; simp [runLoop]
  | cons p r ih =>
    intro s hb ht ha
    have hp1 : p.1 = none := hb p (List.mem_cons_self p r)
    have hp2 : p.2 < 18446744073709551616 := ht p (List.mem_cons_self p r)
    have hz := pollStep_zero_addr p.2 s ha hp2
    rw [runLoop, List.foldl_cons]
    rcases Nat.lt_or_ge 10000 p.2 with hgt | hle
    · obtain ⟨hfire, haddr'⟩ := hz.1 hgt
      have hrest := runLoop_keep_nonzero r (pollStep p.1 p.2 s)
        (fun q hq => by rw [hb q (List.mem_cons_of_mem p hq)]; exact Option.noConfusion)
        (by rw [hp1, haddr']; simp [IP4_ADDR])
      have hany : (p :: r).any (fun p => decide (10000 < p.2)) = true := by
        simp only [List.any_cons, Bool.or_eq_true, decide_eq_true_eq]
        exact Or.inl hgt
      have hone : (if (p :: r).any (fun p => decide (10000 < p.2)) then (1 : ℕ) else 0) = 1 := by
        rw [hany]
        rfl
      rw [hone]
      rw [runLoop] at hrest
      rw [hp1] at hrest ⊢
      omega
    · obtain ⟨hfire, haddr'⟩ := hz.2 hle
      have hrec := ih (pollStep p.1 p.2 s)
        (fun q hq => hb q (List.mem_cons_of_mem p hq))
        (fun q hq => ht q (List.mem_cons_of_mem p hq))
        (by rw [hp1]; exact haddr')
      rw [runLoop] at hrec
      have hhead : (decide (10000 < p.2)) = false := by
        simp only [decide_eq_false_iff_not]
        omega
      simp only [List.any_cons, hhead, Bool.false_or]
      rw [hp1] at hrec ⊢
      omega

/-- Every element of a monotone trace is sampled no earlier than the start. -/
lemma monoTimes_le_all (l : List (Option ℕ × ℕ)) :
    ∀ t : ℕ, monoTimes t l = true → ∀ p ∈ l, t ≤ p.2 := by
  induction l with
  | nil => intro t _ p hp; cases hp
  | cons q r ih =>
    intro t hm p hp
    simp only [monoTimes, Bool.and_eq_true, decide_eq_true_eq] at hm
    obtain ⟨⟨hle, -⟩, hm'⟩ := hm
    rcases List.mem_cons.mp hp with rfl | hp'
    · exact hle
    · exact le_trans hle (ih q.2 hm' p hp')

/-- In a monotone trace, everything before an element is sampled no later than it. -/
lemma monoTimes_prefix_le (e1 : List (Option ℕ × ℕ)) :
    ∀ (t : ℕ) (q : Option ℕ × ℕ) (e2 : List (Option ℕ × ℕ)),
      monoTimes t (e1 ++ q :: e2) = true → ∀ p ∈ e1, p.2 ≤ q.2 := by
  induction e1 with
  | nil => intro t q e2 _ p hp; cases hp
  | cons x r ih =>
    intro t q e2 hm p hp
    simp only [List.cons_append, monoTimes, Bool.and_eq_true, decide_eq_true_eq] at hm
    obtain ⟨⟨-, -⟩, hm'⟩ := hm
    rcases List.mem_cons.mp hp with rfl | hp'
    · exact monoTimes_le_all (r ++ q :: e2) p.2 hm' q (by simp)
    · exact ih x.2 q e2 hm' p hp'

/-- C3: fallback behaviour of the poll loop.  First part: if no bound address
ever arrives (no bind events), the fixed fallback triple is applied at most
once, and exactly once as soon as some poll samples a time past 10000 ms —
however long polling continues afterward (the guard tests the still-unset
address, and applying the fallback makes it nonzero).  Second part: if a bound
address arrives at a sample time below 10000 ms (and no later event clears the
address), the fallback never fires. -/
theorem C3_fallback_once :
    (∀ (c0 : ℕ) (evs : List (Option ℕ × ℕ)),
      (∀ p ∈ evs, p.1 = none) →
      (∀ p ∈ evs, p.2 < 18446744073709551616) →
      (runLoop (initLoop c0) evs).fallbackFires ≤ 1 ∧
        ((∃ p ∈ evs, 10000 < p.2) → (runLoop (initLoop c0) evs).fallbackFires = 1)) ∧
    (∀ (c0 : ℕ) (e1 : List (Option ℕ × ℕ)) (a tb : ℕ) (e2 : List (Option ℕ × ℕ)),
      a ≠ 0 → tb < 10000 →
      monoTimes c0 (e1 ++ (some a, tb) :: e2) = true →
      (∀ p ∈ e1 ++ (some a, tb) :: e2, p.1 ≠ some 0) →
      (runLoop (initLoop c0) (e1 ++ (some a, tb) :: e2)).fallbackFires = 0) := by
  constructor
  · intro c0 evs hb ht
    have h0 : (initLoop c0).fallbackFires = 0 := rfl
    have hrun := runLoop_no_binds evs (initLoop c0) hb ht rfl
    constructor
    · rw [hrun, h0]
      split_ifs <;> omega
    · intro hex
      have hany : evs.any (fun p => decide (10000 < p.2)) = true := by
        simp only [List.any_eq_true, decide_eq_true_eq]
        exact hex
      rw [hrun, h0, hany]
      rfl
  · intro c0 e1 a tb e2 ha htb hm hb
    have hpre : ∀ p ∈ e1, p.2 ≤ 10000 := fun p hp =>
      le_trans (monoTimes_prefix_le e1 c0 (some a, tb) e2 hm p hp) (by omega)
    have hsplit : runLoop (initLoop c0) (e1 ++ (some a, tb) :: e2)
        = runLoop (pollStep (some a) tb (runLoop (initLoop c0) e1)) e2 := by
      simp [runLoop, List.foldl_append]
    rw [hsplit]
    have h1 : (runLoop (initLoop c0) e1).fallbackFires = 0 := by
      rw [runLoop_low_times e1 (initLoop c0) hpre]
      rfl
    have hb2 := pollStep_bind_low a tb (runLoop (initLoop c0) e1) (by omega)
    have hrest := runLoop_keep_nonzero e2 (pollStep (some a) tb (runLoop (initLoop c0) e1))
        (fun q hq => hb q (by simp [hq]))
        (by rw [hb2.1]; exact ha)
    rw [hrest.1, hb2.2, h1]

/-- C3 witness: on concrete traces, a bind-free run whose second poll passes
10000 ms applies the fallback exactly once, and a run that binds address 5 at
500 ms never applies it even though polling continues past 10000 ms. -/
theorem C3_witness :
    (runLoop (initLoop 0) [(none, 20000)]).fallbackFires ≤ 1 ∧
    (runLoop (initLoop 0) [(none, 20000)]).fallbackFires = 1 ∧
    (runLoop (initLoop 0) (([] : List (Option ℕ × ℕ)) ++ (some 5, 500) :: [(none, 20000)])).fallbackFires = 0 := by
  have h1 := C3_fallback_once.1 0 [(none, 20000)] (by decide) (by decide)
  have h2 := C3_fallback_once.2 0 [] 5 500 [(none, 20000)] (by decide) (by decide)
      (by decide) (by decide)
  exact ⟨h1.1, h1.2 ⟨(none, 20000), List.mem_cons_self _ _, by norm_num⟩, h2⟩

/-- C8: the one-shot interface setup netif_set_opts assigns the 6-byte
link-layer address 00:23:C1:DE:D0:0D, MTU 1500, the broadcast/ARP/Ethernet
capability flags, wires the link-layer output to the bridge transmit path
(netif_output) and the network-layer output to the stack's address-resolution
function (etharp_output), and returns ERR_OK; and no poll-loop operation
(bind events, fine/coarse timers, fallback application) ever mutates any of
these attributes again. -/
theorem C8_interface_setup :
    (∀ nf : Netif,
      (netif_set_opts nf).1.hwaddr = [0x00, 0x23, 0xC1, 0xDE, 0xD0, 0x0D] ∧
      (netif_set_opts nf).1.hwaddr.length = 6 ∧
      (netif_set_opts nf).1.hwaddr_len = 6 ∧
      (netif_set_opts nf).1.mtu = 1500 ∧
      (netif_set_opts nf).1.flags = { broadcast := true, etharp := true, ethernet := true } ∧
      (netif_set_opts nf).1.linkoutput = LinkOutput.netifOutputFn ∧
      (netif_set_opts nf).1.output = NetOutput.etharpOutputFn ∧
      (netif_set_opts nf).2 = ERR_OK) ∧
    (∀ (b : Option ℕ) (t : ℕ) (s : LoopState),
      (pollStep b t s).netif.mtu = s.netif.mtu ∧
      (pollStep b t s).netif.flags = s.netif.flags ∧
      (pollStep b t s).netif.hwaddr = s.netif.hwaddr ∧
      (pollStep b t s).netif.hwaddr_len = s.netif.hwaddr_len ∧
      (pollStep b t s).netif.linkoutput = s.netif.linkoutput ∧
      (pollStep b t s).netif.output = s.netif.output) := by
  constructor
  · intro nf
    exact ⟨rfl, rfl, rfl, rfl, rfl, rfl, rfl, rfl⟩
  · intro b t s
    cases b <;> simp only [pollStep] <;> split_ifs <;>
      simp [use_static_ip, netif_set_addr]

/-- C10: every firing of the fallback action use_static_ip installs exactly
the address 10.0.2.99, netmask 255.255.255.0 and gateway 10.0.0.1 through a
single netif_set_addr call and changes nothing else: every other interface
attribute is untouched (and the function does not touch scheduler state at
all — its type acts on the interface alone). -/
theorem C10_static_triple (nf : Netif) :
    (use_static_ip nf).ip_addr = IP4_ADDR 10 0 2 99 ∧
    (use_static_ip nf).ip_addr = 167772771 ∧
    (use_static_ip nf).netmask = IP4_ADDR 255 255 255 0 ∧
    (use_static_ip nf).netmask = 4294967040 ∧
    (use_static_ip nf).gw = IP4_ADDR 10 0 0 1 ∧
    (use_static_ip nf).gw = 167772161 ∧
    use_static_ip nf
      = netif_set_addr nf (IP4_ADDR 10 0 2 99) (IP4_ADDR 255 255 255 0) (IP4_ADDR 10 0 0 1) ∧
    (use_static_ip nf).mtu = nf.mtu ∧
    (use_static_ip nf).flags = nf.flags ∧
    (use_static_ip nf).hwaddr = nf.hwaddr ∧
    (use_static_ip nf).hwaddr_len = nf.hwaddr_len ∧
    (use_static_ip nf).linkoutput = nf.linkoutput ∧
    (use_static_ip nf).output = nf.output :=
  ⟨rfl, rfl, rfl, rfl, rfl, rfl, rfl, rfl, rfl, rfl, rfl, rfl, rfl⟩

/-- Modelled from the spec: pbuf_copy_partial is the stack's chain-linearizing
copy (an external lwIP primitive; spec section 4.3 says the transmit path
"linearizes the chain into a single contiguous scratch region"): it copies
`len` bytes of the concatenated chain contents starting at byte `offset` into
the destination buffer. -/
def pbuf_copy_partial (p : List (List ℕ)) (len offset : ℕ) : List ℕ :=
  ((p.flatten).drop offset).take len

/-- Embedding of netif_output (src/app/app.c:103): a pbuf chain is a list of
segments of bytes; `tot_len` is the total byte count; the VLA scratch buffer
mac_send_buffer receives pbuf_copy_partial of the whole chain at offset 0, and
exactly one driver send call nr_lan91c111_tx_frame is made, recorded as the
(bytes, length-argument) pair in the first component; the function then
returns ERR_OK.  It holds no state, so nothing is buffered across calls. -/
def netif_output (p : List (List ℕ)) : List (List ℕ × ℕ) × ℤ :=
  let tot_len := (p.map List.length).sum
  let mac_send_buffer := pbuf_copy_partial p tot_len 0
  ([(mac_send_buffer, tot_len)], ERR_OK)

/-- C6: a transmit-path call on a chain of total length L makes exactly one
driver send call, whose byte payload is exactly the concatenation of the chain
segments (hence exactly L bytes, byte-for-byte) and whose length argument is L,
and returns ERR_OK. -/
theorem C6_transmit (p : List (List ℕ)) :
    (netif_output p).1 = [(p.flatten, p.flatten.length)] ∧
    (netif_output p).2 = ERR_OK := by
  constructor
  · simp only [netif_output, pbuf_copy_partial, List.drop_zero]
    rw [← List.length_flatten, List.take_length]
  · rfl

/-- Record of externally visible actions of one receive-path call: the
arguments of the (single) netif.input call and of any pbuf_free calls, with
`none` standing for the C NULL pointer. -/
structure RxOutcome where
  inputCalls : List (Option (List ℕ))
  freeCalls : List (Option (List ℕ))
deriving DecidableEq, Repr

/-- Modelled from the spec: pbuf_alloc is the stack's pool allocator (external
lwIP primitive; spec section 6 `allocate(length) -> Buffer`), which yields a
fresh buffer of the requested length when the pool has room and NULL when it
is exhausted; `poolAvail` selects which. -/
def pbuf_alloc : Bool → ℕ → Option (List ℕ)
  | true, frame_len => some (List.replicate frame_len 0)
  | false, _ => none

/-- Modelled from the spec: pbuf_take (external lwIP primitive) copies the
frame bytes into the allocated buffer, filling its full length. -/
def pbuf_take (buf frame : List ℕ) : List ℕ :=
  frame.take buf.length

/-- Embedding of process_frames (src/app/app.c:92): allocate a pool buffer of
the frame's length; if allocation succeeded, copy the frame bytes in; then
call netif.input with the buffer pointer — note the source does this even when
the pointer is NULL — and if the input call does not return ERR_OK, call
pbuf_free on the same pointer.  The stack's verdict on the buffer is abstracted
as the `input` function argument. -/
def process_frames (poolAvail : Bool) (input : Option (List ℕ) → ℤ) (frame : List ℕ) :
    RxOutcome :=
  let p0 : Option (List ℕ) := pbuf_alloc poolAvail frame.length
  let p : Option (List ℕ) :=
    match p0 with
    | some buf => some (pbuf_take buf frame)
    | none => none
  if input p ≠ ERR_OK then { inputCalls := [p], freeCalls := [p] }
  else { inputCalls := [p], freeCalls := [] }

/-- C2 (code bug evidence): when pool allocation fails, process_frames does not
discard the frame locally — it passes the NULL buffer straight to the stack's
ingestion entry point netif.input (whose contract requires a valid buffer and
whose lwIP implementation dereferences it), and, if that call reports an
error, even passes NULL to pbuf_free; this holds for every frame and every
stack verdict.  By contrast the successful-allocation path does satisfy the
claim: on rejection the very buffer that was handed in is released before the
call returns. -/
theorem C2_rx_null_to_stack :
    (∀ (input : Option (List ℕ) → ℤ) (frame : List ℕ),
      (process_frames false input frame).inputCalls = [none]) ∧
    (process_frames false (fun _ => -1) [1, 2, 3]).freeCalls = [none] ∧
    (∀ frame : List ℕ,
      (process_frames true (fun _ => -1) frame).inputCalls = [some frame] ∧
      (process_frames true (fun _ => -1) frame).freeCalls = [some frame]) := by
  refine ⟨?_, by decide, ?_⟩
  · intro input frame
    simp only [process_frames, pbuf_alloc]
    split_ifs <;> rfl
  · intro frame
    have hne : (-1 : ℤ) ≠ ERR_OK := by decide
    have htake : pbuf_take (List.replicate frame.length 0) frame = frame := by
      simp [pbuf_take]
    simp only [process_frames, pbuf_alloc, htake]
    rw [if_pos hne]
    exact ⟨rfl, rfl⟩
